import Mathlib

/-
Verification of the core editor pipeline of this repository:
the JSX-dialect parser (`parseJSX` and its conversion helpers), the
tree model (`EditorNode`), the id-addressed mutation operations
(`updateNodeStyle`, `updateNodeText`), the serializer (`serializeToJSX`,
`serializeProps`, `serializeStyle`), the utility-class style resolver
(`getComputedStylesFromClassName`), the property-panel style merge and
gradient detection, and the renderer's double-click text-edit scoping.

Modelling conventions:
* JavaScript records (`Record<string, unknown>`) are modelled as
  insertion-ordered association lists (`PropList`); property assignment
  (`obj[k] = v` or `{ ...obj, k: v }`) replaces the value in place when the
  key is present and appends otherwise, as JS objects do.
* `uuidv4()` produces opaque fresh identifiers; it is modelled as a counter
  threaded through the conversion functions (ids are opaque tokens, only
  their freshness matters).
* Numeric literals are modelled as integers; the dialect's observed inputs
  use integral values only.
* Thrown exceptions are modelled with `Option`/`Except`: a `none`/`.error`
  result of the grammar front end stands for `@babel/parser` throwing.
-/

namespace WebEd

/-! ## JavaScript string primitives -/

/-- JS whitespace (the ASCII part relevant to `String.prototype.trim` and
the `\s` character class). -/
def isJsWs (c : Char) : Bool :=
  c = ' ' || c = '\t' || c = '\n' || c = '\r' || c = '\x0b' || c = '\x0c'

/-- JS `String.prototype.trim`. -/
def jsTrim (s : String) : String :=
  ⟨((s.toList.dropWhile isJsWs).reverse.dropWhile isJsWs).reverse⟩

/-- JS `wrappedCode.startsWith('<')`. -/
def startsWithLt (s : String) : Bool :=
  match s.toList with
  | '<' :: _ => true
  | _ => false

/-- Whether `pre` occurs at the start of `l`. -/
def leadsWith : List Char → List Char → Bool
  | [], _ => true
  | _ :: _, [] => false
  | p :: ps, c :: cs => p = c && leadsWith ps cs

/-- JS `String.prototype.includes` (substring search). -/
def containsSub (needle : List Char) : List Char → Bool
  | [] => needle.isEmpty
  | c :: cs => leadsWith needle (c :: cs) || containsSub needle cs

/-- Join a list of strings with a separator (JS `Array.prototype.join`). -/
def joinSep (sep : String) : List String → String
  | [] => ""
  | [x] => x
  | x :: rest => x ++ sep ++ joinSep sep rest

/-- JS `'  '.repeat(indent)` for the given indentation string. -/
def repeatStr (s : String) : Nat → String
  | 0 => ""
  | n + 1 => s ++ repeatStr s n

/-- JS `\w` word characters. -/
def isWordChar (c : Char) : Bool :=
  c.isAlpha || c.isDigit || c = '_'

/-- Digits to a natural number (JS `parseInt` on an all-digit string). -/
def digitsToNat (l : List Char) : Nat :=
  l.foldl (fun acc c => 10 * acc + (c.toNat - '0'.toNat)) 0

/-- JS string coercion of an integer (template interpolation of a number). -/
def jsNumToString (i : Int) : String :=
  if i < 0 then "-" ++ Nat.repr i.natAbs else Nat.repr i.natAbs

/-- One step of `className.split(/\s+/)`: accumulate the current token
(`cur`, reversed); `inRun` records whether we are inside a whitespace run.
A leading or trailing whitespace run produces an empty token, exactly as the
JS regex split does. -/
def splitWsGo : List Char → List Char → Bool → List String
  | [], cur, false => [⟨cur.reverse⟩]
  | [], _, true => [""]
  | c :: rest, cur, false =>
    if isJsWs c then (⟨cur.reverse⟩ : String) :: splitWsGo rest [] true
    else splitWsGo rest (c :: cur) false
  | c :: rest, _, true =>
    if isJsWs c then splitWsGo rest [] true
    else splitWsGo rest [c] false

/-- JS `className.split(/\s+/)`. -/
def splitWs (s : String) : List String :=
  splitWsGo s.toList [] false

/-! ## The tree model

`EditorNode` from `types/editor.ts`:
`{ id, type: 'element' | 'text', tagName?, props, children, textContent? }`.
Attribute values (`props` entries) are strings, numbers, booleans or plain
objects, per the parser's extraction rules. -/

/-- The `type` discriminant of `EditorNode`. -/
inductive NodeType where
  | element
  | text
deriving DecidableEq, Repr

mutual

/-- An attribute value: string, number, boolean, or a plain object
(insertion-ordered). -/
inductive PropValue where
  | str (s : String)
  | num (n : Int)
  | bool (b : Bool)
  | obj (ps : PropList)
deriving DecidableEq, Repr

/-- An insertion-ordered JS record of `PropValue`s. -/
inductive PropList where
  | nil
  | cons (key : String) (value : PropValue) (rest : PropList)
deriving DecidableEq, Repr

end

namespace PropList

/-- The keys, in insertion order (JS `Object.keys`). -/
def keys : PropList → List String
  | .nil => []
  | .cons k _ t => k :: keys t

/-- Property read `obj[k]` (first occurrence; JS records have unique keys). -/
def get : PropList → String → Option PropValue
  | .nil, _ => none
  | .cons k' v t, k => if k' = k then some v else get t k

/-- Property assignment `obj[k] = v`: replace in place when the key is
present, append otherwise (JS insertion-order semantics). -/
def set : PropList → String → PropValue → PropList
  | .nil, k, v => .cons k v .nil
  | .cons k' v' t, k, v => if k' = k then .cons k v t else .cons k' v' (set t k v)

/-- List concatenation on `PropList`. -/
def append : PropList → PropList → PropList
  | .nil, r => r
  | .cons k v t, r => .cons k v (append t r)

/-- Spread `{ ...acc, ...src }`: assign every entry of `src` onto `acc` in order. -/
def spreadOnto : PropList → PropList → PropList
  | acc, .nil => acc
  | acc, .cons k v t => spreadOnto (acc.set k v) t

end PropList

/-- Spread `{ ...a, ...b }`: a fresh object receiving both spreads in order. -/
def mergeSpread (a b : PropList) : PropList :=
  (PropList.nil.spreadOnto a).spreadOnto b

/-- Spreading a JS string into an object yields its character-index entries
(`{ ...'ab' }` is `{ 0: 'a', 1: 'b' }`). -/
def stringSpreadGo : Nat → List Char → PropList
  | _, [] => .nil
  | i, c :: rest => .cons (Nat.repr i) (.str ⟨[c]⟩) (stringSpreadGo (i + 1) rest)

/-- Spread of a string value. -/
def stringSpread (s : String) : PropList :=
  stringSpreadGo 0 s.toList

/-- The object that `(props.style as Record<string, string>) || {}` spreads
to: `undefined`/falsy values give the empty object, a truthy string spreads
to its character-index entries, numbers and booleans spread to the empty
object, and an object is itself. -/
def styleBase : Option PropValue → PropList
  | none => .nil
  | some (.str s) => if s = "" then .nil else stringSpread s
  | some (.num _) => .nil
  | some (.bool _) => .nil
  | some (.obj m) => m

/-- JS truthiness of a possibly-absent property value. -/
def jsTruthy : Option PropValue → Bool
  | none => false
  | some (.str s) => s ≠ ""
  | some (.num n) => n ≠ 0
  | some (.bool b) => b
  | some (.obj _) => true

mutual

/-- The type `EditorNode` (see `types/editor.ts`); ids are opaque identity tokens,
modelled as naturals. -/
inductive EditorNode where
  | mk (id : Nat) (type : NodeType) (tagName : Option String)
       (props : PropList) (children : NodeList) (textContent : Option String)
deriving DecidableEq, Repr

/-- The `children` array of an `EditorNode`. -/
inductive NodeList where
  | nil
  | cons (head : EditorNode) (tail : NodeList)
deriving DecidableEq, Repr

end

namespace EditorNode

/-- The `id` field. -/
def id : EditorNode → Nat
  | .mk i _ _ _ _ _ => i

/-- The `type` field. -/
def type : EditorNode → NodeType
  | .mk _ ty _ _ _ _ => ty

/-- The `tagName` field. -/
def tagName : EditorNode → Option String
  | .mk _ _ tag _ _ _ => tag

/-- The `props` field. -/
def props : EditorNode → PropList
  | .mk _ _ _ ps _ _ => ps

/-- The `children` field. -/
def children : EditorNode → NodeList
  | .mk _ _ _ _ cs _ => cs

/-- The `textContent` field. -/
def textContent : EditorNode → Option String
  | .mk _ _ _ _ _ tx => tx

end EditorNode

namespace NodeList

/-- Length of a children array. -/
def len : NodeList → Nat
  | .nil => 0
  | .cons _ t => 1 + len t

/-- JS `children.every(c => c.type === 'text')`. -/
def allText : NodeList → Bool
  | .nil => true
  | .cons c t => c.type = NodeType.text && allText t

/-- JS `children.find(c => c.type === 'text')`. -/
def findText : NodeList → Option EditorNode
  | .nil => none
  | .cons c t => if c.type = NodeType.text then some c else findText t

/-- Number of direct text children. -/
def countText : NodeList → Nat
  | .nil => 0
  | .cons c t => (if c.type = NodeType.text then 1 else 0) + countText t

end NodeList

/-! ## Tree traversal and mutation (`lib/parser.ts`) -/

mutual

/-- All ids of a tree, root first (the claim's "collecting the ids of all
nodes in the tree"). -/
def collectIds : EditorNode → List Nat
  | .mk i _ _ _ cs _ => i :: collectIdsL cs

/-- The concatenation of `collectIds` over a children array. -/
def collectIdsL : NodeList → List Nat
  | .nil => []
  | .cons c t => collectIds c ++ collectIdsL t

end

/-- Convert a `Record<string, string>` of style updates to prop entries. -/
def updListToProps : List (String × String) → PropList
  | [] => .nil
  | (k, v) :: t => .cons k (.str v) (updListToProps t)

mutual

/-- Embedding of `updateNodeStyle(root, id, styleUpdates)`: copy-on-write update that
replaces the target's `style` prop with
`{ ...((root.props.style as Record<string,string>) || {}), ...styleUpdates }`
and otherwise maps itself over the children. -/
def updateNodeStyle : EditorNode → Nat → List (String × String) → EditorNode
  | .mk nid ty tag props cs tx, i, upd =>
    if nid = i then
      let currentStyle := styleBase (props.get "style")
      .mk nid ty tag
        (props.set "style" (.obj (mergeSpread currentStyle (updListToProps upd))))
        cs tx
    else
      .mk nid ty tag props (updateNodeStyleL cs i upd) tx

/-- JS `root.children.map(child => updateNodeStyle(child, id, styleUpdates))`. -/
def updateNodeStyleL : NodeList → Nat → List (String × String) → NodeList
  | .nil, _, _ => .nil
  | .cons c t, i, upd => .cons (updateNodeStyle c i upd) (updateNodeStyleL t i upd)

end

mutual

/-- Embedding of `updateNodeText(root, id, textContent)`: sets `textContent` on the target
node, otherwise maps itself over the children. -/
def updateNodeText : EditorNode → Nat → String → EditorNode
  | .mk nid ty tag props cs tx, i, s =>
    if nid = i then .mk nid ty tag props cs (some s)
    else .mk nid ty tag props (updateNodeTextL cs i s) tx

/-- JS `root.children.map(child => updateNodeText(child, id, textContent))`. -/
def updateNodeTextL : NodeList → Nat → String → NodeList
  | .nil, _, _ => .nil
  | .cons c t, i, s => .cons (updateNodeText c i s) (updateNodeTextL t i s)

end

/-! ## Serializer (`lib/serializer.ts`) -/

/-- JS string coercion of a prop value (template interpolation `${value}`). -/
def jsToString : PropValue → String
  | .str s => s
  | .num i => jsNumToString i
  | .bool true => "true"
  | .bool false => "false"
  | .obj _ => "[object Object]"

/-- Per-character action of `escapeString`: escape backslash, double quote and newline. -/
def escChar (c : Char) : List Char :=
  if c = '\\' then ['\\', '\\']
  else if c = '"' then ['\\', '"']
  else if c = '\n' then ['\\', 'n']
  else [c]

/-- Embedding of `escapeString(str)` from the serializer. -/
def escapeString (s : String) : String :=
  ⟨(s.toList.map escChar).flatten⟩

mutual

/-- JS `JSON.stringify` on the prop values this model can hold (string escapes
restricted to the characters `escapeString` handles plus tab and carriage
return). -/
def jsonStringify : PropValue → String
  | .str s => "\"" ++ escapeString s ++ "\""
  | .num i => jsNumToString i
  | .bool true => "true"
  | .bool false => "false"
  | .obj ps => "\x7b" ++ joinSep "," (jsonMembers ps) ++ "\x7d"

/-- The `"key":value` members of a JSON object. -/
def jsonMembers : PropList → List String
  | .nil => []
  | .cons k v t => ("\"" ++ escapeString k ++ "\":" ++ jsonStringify v) :: jsonMembers t

end

/-- The `key: "value"` parts of `serializeStyle`: one part per entry whose
value is not `undefined`, `null` or `''` (only the empty string is
representable here); the value is interpolated with JS string coercion. -/
def serializeStyleParts : PropList → List String
  | .nil => []
  | .cons k v t =>
    if v = .str "" then serializeStyleParts t
    else (k ++ ": \"" ++ jsToString v ++ "\"") :: serializeStyleParts t

/-- Embedding of `serializeStyle(style)`: empty object gives `''`; otherwise the parts
joined with `', '` inside `{ ... }`. -/
def serializeStyle : PropList → String
  | .nil => ""
  | style => "\x7b " ++ joinSep ", " (serializeStyleParts style) ++ " \x7d"

/-- JS `typeof value === 'object'` for a prop value. -/
def isObjVal : PropValue → Bool
  | .obj _ => true
  | _ => false

/-- One serialized attribute, or `none` when the entry is omitted
(`false` booleans, and a `style` object that serializes to `''`).
Mirrors the branch chain of `serializeProps`: the `style`-object case is
guarded by `key === 'style' && typeof value === 'object'`, then strings,
booleans, numbers and other objects follow. -/
def serializePropPart (k : String) (v : PropValue) : Option String :=
  if k = "style" && isObjVal v then
    match v with
    | .obj m =>
      let styleStr := serializeStyle m
      if styleStr = "" then none else some ("style=\x7b" ++ styleStr ++ "\x7d")
    | _ => none
  else
    match v with
    | .str s => some (k ++ "=\"" ++ escapeString s ++ "\"")
    | .bool true => some k
    | .bool false => none
    | .num i => some (k ++ "=\x7b" ++ jsNumToString i ++ "\x7d")
    | .obj m => some (k ++ "=\x7b" ++ jsonStringify (.obj m) ++ "\x7d")

/-- The parts list of `serializeProps`, in key insertion order. -/
def serializePropsParts : PropList → List String
  | .nil => []
  | .cons k v t =>
    match serializePropPart k v with
    | some p => p :: serializePropsParts t
    | none => serializePropsParts t

/-- Embedding of `serializeProps(props)`. -/
def serializeProps (props : PropList) : String :=
  match serializePropsParts props with
  | [] => ""
  | parts => " " ++ joinSep " " parts

/-- JS `node.tagName || 'div'` (an empty tag name is falsy). -/
def tagOrDiv : Option String → String
  | none => "div"
  | some t => if t = "" then "div" else t

mutual

/-- Embedding of `serializeToJSX(node, indent)`. -/
def serializeToJSX : EditorNode → Nat → String
  | .mk _ ty tag props cs tx, indent =>
    if ty = NodeType.text then tx.getD ""
    else if tag = some "Fragment" then
      "<>\n" ++ joinSep "\n" (serializeFragLines cs indent) ++ "\n"
        ++ repeatStr "  " indent ++ "</>"
    else
      let tagName := tagOrDiv tag
      let propsStr := serializeProps props
      match cs with
      | .nil => repeatStr "  " indent ++ "<" ++ tagName ++ propsStr ++ " />"
      | _ =>
        if cs.allText && cs.len = 1 then
          repeatStr "  " indent ++ "<" ++ tagName ++ propsStr ++ ">"
            ++ (match cs with
                | .cons c _ => c.textContent.getD ""
                | .nil => "")
            ++ "</" ++ tagName ++ ">"
        else
          repeatStr "  " indent ++ "<" ++ tagName ++ propsStr ++ ">\n"
            ++ joinSep "\n" (serializeChildLines cs indent) ++ "\n"
            ++ repeatStr "  " indent ++ "</" ++ tagName ++ ">"

/-- Fragment children: `children.map(child => serializeToJSX(child, indent))`. -/
def serializeFragLines : NodeList → Nat → List String
  | .nil, _ => []
  | .cons c t, indent => serializeToJSX c indent :: serializeFragLines t indent

/-- Element children lines: a text child becomes
`indentStr + '  ' + textContent`, any other child recurses one level
deeper. -/
def serializeChildLines : NodeList → Nat → List String
  | .nil, _ => []
  | .cons c t, indent =>
    (if c.type = NodeType.text then
      repeatStr "  " indent ++ "  " ++ c.textContent.getD ""
     else serializeToJSX c (indent + 1)) :: serializeChildLines t indent

end

mutual

/-- Structural equality of trees ignoring ids: same type, tag, attribute
values, text content and children shapes (the round-trip claim's notion of
"structurally equal"). -/
def structEq : EditorNode → EditorNode → Bool
  | .mk _ ty1 tag1 p1 cs1 tx1, .mk _ ty2 tag2 p2 cs2 tx2 =>
    decide (ty1 = ty2) && decide (tag1 = tag2) && decide (p1 = p2)
      && decide (tx1 = tx2) && structEqL cs1 cs2

/-- The conjunction of `structEq` over children arrays. -/
def structEqL : NodeList → NodeList → Bool
  | .nil, .nil => true
  | .cons c1 t1, .cons c2 t2 => structEq c1 c2 && structEqL t1 t2
  | _, _ => false

end

/-! ## Style resolver (`getComputedStylesFromClassName`, `lib/renderer.ts`) -/

/-- Insertion-ordered assignment on a string-valued record (the `styles`
object of the resolver). -/
def strSet : List (String × String) → String → String → List (String × String)
  | [], k, v => [(k, v)]
  | (k', v') :: t, k, v => if k' = k then (k, v) :: t else (k', v') :: strSet t k v

/-- The font-size scale of `text-{xs..6xl}`. -/
def sizeScale : List (String × String) :=
  [("xs", "12px"), ("sm", "14px"), ("base", "16px"), ("lg", "18px"),
   ("xl", "20px"), ("2xl", "24px"), ("3xl", "30px"), ("4xl", "36px"),
   ("5xl", "48px"), ("6xl", "60px")]

/-- The size keywords excluded from the text-color rule. -/
def sizeNames : List String :=
  ["xs", "sm", "base", "lg", "xl", "2xl", "3xl", "4xl", "5xl", "6xl"]

/-- The fixed named-color palette (the identical map is written twice in the
source, once for text colors and once for background colors). -/
def colorMap : List (String × String) :=
  [("white", "#ffffff"), ("black", "#000000"),
   ("gray-100", "#f3f4f6"), ("gray-200", "#e5e7eb"), ("gray-300", "#d1d5db"),
   ("gray-400", "#9ca3af"), ("gray-500", "#6b7280"), ("gray-600", "#4b5563"),
   ("gray-700", "#374151"), ("gray-800", "#1f2937"), ("gray-900", "#111827"),
   ("red-500", "#ef4444"), ("blue-500", "#3b82f6"), ("green-500", "#22c55e"),
   ("yellow-500", "#eab308"), ("purple-500", "#a855f7"), ("pink-500", "#ec4899")]

/-- Lookup in a string-valued table. -/
def tableGet (t : List (String × String)) (k : String) : Option String :=
  match t.find? (fun p => p.1 = k) with
  | some p => some p.2
  | none => none

/-- Match of the regex `(\w+)(-\d+)?$` against the characters after a
`text-`/`bg-` prefix. Returns the `\w+` group and the whole matched key.
The decomposition is deterministic: `\w` never matches `-`, so the first
group is the maximal word-character run. -/
def wordDashKey (l : List Char) : Option (String × String) :=
  let w := l.takeWhile isWordChar
  if w.isEmpty then none
  else
    match l.drop w.length with
    | [] => some (⟨w⟩, ⟨w⟩)
    | '-' :: ds =>
      if ds ≠ [] && ds.all (·.isDigit) then some (⟨w⟩, ⟨w ++ '-' :: ds⟩)
      else none
    | _ => none

/-- The characters of `cls` after a literal prefix, when it matches. -/
def afterLit (pre : String) (cls : String) : Option (List Char) :=
  if leadsWith pre.toList cls.toList then some (cls.toList.drop pre.toList.length)
  else none

/-- Match of `^p-(\d+)$`-style patterns: the prefix followed by one or more
digits; returns `parseInt` of the digits. -/
def numSuffix (pre : String) (cls : String) : Option Nat :=
  match afterLit pre cls with
  | some ds => if ds ≠ [] && ds.all (·.isDigit) then some (digitsToNat ds) else none
  | none => none

/-- The `n * 4` pixel spacing value. -/
def spacingPx (n : Nat) : String :=
  Nat.repr (n * 4) ++ "px"

/-- The text-color rule: `^text-(\w+)(-\d+)?$` where the first group is not
a size keyword, looked up in the palette. -/
def textColorOf (cls : String) : Option String :=
  match afterLit "text-" cls with
  | some rest =>
    match wordDashKey rest with
    | some (w, key) => if w ∈ sizeNames then none else tableGet colorMap key
    | none => none
  | none => none

/-- The background-color rule: `^bg-(\w+)(-\d+)?$` looked up in the palette. -/
def bgColorOf (cls : String) : Option String :=
  match afterLit "bg-" cls with
  | some rest =>
    match wordDashKey rest with
    | some (_, key) => tableGet colorMap key
    | none => none
  | none => none

/-- The font-size rule: `^text-(xs|sm|base|lg|xl|2xl|3xl|4xl|5xl|6xl)$`,
with `sizes[size] || '16px'`. -/
def fontSizeOf (cls : String) : Option String :=
  match afterLit "text-" cls with
  | some rest =>
    if (⟨rest⟩ : String) ∈ sizeNames then
      some ((tableGet sizeScale ⟨rest⟩).getD "16px")
    else none
  | none => none

/-- One loop iteration of `getComputedStylesFromClassName`: apply every
independent `if` of the source, in source order, to the accumulated styles. -/
def resolveClass (st : List (String × String)) (cls : String) : List (String × String) :=
  let st := match fontSizeOf cls with
    | some v => strSet st "fontSize" v
    | none => st
  let st := if cls = "font-bold" then strSet st "fontWeight" "bold" else st
  let st := if cls = "font-semibold" then strSet st "fontWeight" "600" else st
  let st := if cls = "font-medium" then strSet st "fontWeight" "500" else st
  let st := if cls = "font-normal" then strSet st "fontWeight" "normal" else st
  let st := if cls = "font-light" then strSet st "fontWeight" "300" else st
  let st := match textColorOf cls with
    | some v => strSet st "color" v
    | none => st
  let st := match bgColorOf cls with
    | some v => strSet st "backgroundColor" v
    | none => st
  let st := match numSuffix "p-" cls with
    | some n => strSet st "padding" (spacingPx n)
    | none => st
  let st := match numSuffix "px-" cls with
    | some n => strSet (strSet st "paddingLeft" (spacingPx n)) "paddingRight" (spacingPx n)
    | none => st
  let st := match numSuffix "py-" cls with
    | some n => strSet (strSet st "paddingTop" (spacingPx n)) "paddingBottom" (spacingPx n)
    | none => st
  let st := match numSuffix "m-" cls with
    | some n => strSet st "margin" (spacingPx n)
    | none => st
  let st := match numSuffix "mx-" cls with
    | some n => strSet (strSet st "marginLeft" (spacingPx n)) "marginRight" (spacingPx n)
    | none => st
  let st := match numSuffix "my-" cls with
    | some n => strSet (strSet st "marginTop" (spacingPx n)) "marginBottom" (spacingPx n)
    | none => st
  let st := if cls = "rounded" then strSet st "borderRadius" "4px" else st
  let st := if cls = "rounded-lg" then strSet st "borderRadius" "8px" else st
  let st := if cls = "rounded-full" then strSet st "borderRadius" "9999px" else st
  let st := if cls = "flex" then strSet st "display" "flex" else st
  let st := if cls = "flex-col" then strSet st "flexDirection" "column" else st
  let st := if cls = "items-center" then strSet st "alignItems" "center" else st
  let st := if cls = "justify-center" then strSet st "justifyContent" "center" else st
  let st := if cls = "gap-2" then strSet st "gap" "8px" else st
  let st := if cls = "gap-4" then strSet st "gap" "16px" else st
  st

/-- Embedding of `getComputedStylesFromClassName(className)`. -/
def getComputedStylesFromClassName (className : String) : List (String × String) :=
  (splitWs className).foldl resolveClass []

/-! ## Property panel (`PropertyPanel.tsx`) -/

/-- Lift the resolver's string record to prop values. -/
def liftStrs : List (String × String) → PropList
  | [] => .nil
  | (k, v) :: t => .cons k (.str v) (liftStrs t)

/-- Embedding of `extractStyleFromNode(node)`: a copy of
`(node.props.style as Record<string, string>) || {}`. -/
def extractStyleFromNode (n : EditorNode) : PropList :=
  PropList.nil.spreadOnto (styleBase (n.props.get "style"))

/-- The class-derived styles of a node: resolved from `props.className` when
it is a string, the empty record otherwise. -/
def classStylesOfNode (n : EditorNode) : PropList :=
  match n.props.get "className" with
  | some (.str s) => liftStrs (getComputedStylesFromClassName s)
  | _ => .nil

/-- The panel's merged style map:
`{ ...classStyles, ...inlineStyles }` (inline applied last). -/
def resolvedStyle (n : EditorNode) : PropList :=
  mergeSpread (classStylesOfNode n) (extractStyleFromNode n)

/-! ## Gradient detection (`PropertyPanel.tsx`, background effect) -/

/-- The panel's background mode. -/
inductive BackgroundType where
  | solid
  | gradient
deriving DecidableEq, Repr

/-- The gradient-related state cells of the panel
(`backgroundType`, `gradientDirection`, `gradientFrom`, `gradientTo`). -/
structure GradState where
  bgType : BackgroundType
  dir : String
  gFrom : String
  gTo : String
deriving DecidableEq, Repr

/-- The panel's initial gradient state. -/
def initGradState : GradState :=
  ⟨.solid, "to right", "#8b5cf6", "#3b82f6"⟩

/-- One segment of the gradient regex after a comma: `\s*([^,]+)` followed
by the literal terminator. Greedy `\s*` with backtracking: the group is the
segment with its leading whitespace stripped, except that an all-whitespace
segment backtracks to leave its last whitespace character in the group. -/
def gradSeg (term : Char) (l : List Char) : Option (List Char × List Char) :=
  let sp := l.takeWhile isJsWs
  let rest := l.drop sp.length
  let t := rest.takeWhile (· ≠ term)
  if t ≠ [] then
    match rest.drop t.length with
    | c :: r => if c = term then some (t, r) else none
    | [] => none
  else
    match sp.getLast?, rest with
    | some lastSp, c :: r => if c = term then some ([lastSp], r) else none
    | _, _ => none

/-- A match attempt of
`linear-gradient\(([^,]+),\s*([^,]+),\s*([^)]+)\)` starting at the head of
`l`; the groups are deterministic because `[^,]+`/`[^)]+` cannot cross
their terminators. -/
def gradMatchAt (l : List Char) : Option (String × String × String) :=
  let lit := "linear-gradient(".toList
  if leadsWith lit l then
    let r0 := l.drop lit.length
    let g1 := r0.takeWhile (· ≠ ',')
    if g1 ≠ [] then
      match r0.drop g1.length with
      | ',' :: r1 =>
        match gradSeg ',' r1 with
        | some (g2, r2) =>
          match gradSeg ')' r2 with
          | some (g3, _) => some (⟨g1⟩, ⟨g2⟩, ⟨g3⟩)
          | none => none
        | none => none
      | _ => none
    else none
  else none

/-- Leftmost-match regex search for the gradient pattern. -/
def gradSearch : Nat → List Char → Option (String × String × String)
  | 0, _ => none
  | fuel + 1, l =>
    match gradMatchAt l with
    | some r => some r
    | none =>
      match l with
      | [] => none
      | _ :: rest => gradSearch fuel rest

/-- JS `bgImage.match(/linear-gradient\(([^,]+),\s*([^,]+),\s*([^)]+)\)/)`. -/
def gradMatch (s : String) : Option (String × String × String) :=
  gradSearch (s.toList.length + 1) s.toList

/-- The `backgroundImage` string read from the inline styles
(`inlineStyles.backgroundImage || ''`; the panel reads it as a string). -/
def bgImageOf (inlineStyles : PropList) : String :=
  match inlineStyles.get "backgroundImage" with
  | some (.str s) => s
  | _ => ""

/-- The gradient-detection effect of the panel: when the background image
contains `'linear-gradient'` the background type becomes gradient and a
successful regex match additionally installs the direction (group 1,
untrimmed) and the trimmed color stops (groups 2 and 3); otherwise a truthy
merged `backgroundColor` selects solid, and failing that the state is left
unchanged. -/
def gradientDetect (inlineStyles mergedStyles : PropList) (prev : GradState) : GradState :=
  let bgImage := bgImageOf inlineStyles
  if containsSub "linear-gradient".toList bgImage.toList then
    match gradMatch bgImage with
    | some (d, f, t) => ⟨.gradient, d, jsTrim f, jsTrim t⟩
    | none => { prev with bgType := .gradient }
  else if jsTruthy (mergedStyles.get "backgroundColor") then
    { prev with bgType := .solid }
  else prev

/-! ## Renderer double-click scoping (`renderNode`, `lib/renderer.ts`) -/

/-- The id that a double-click on a rendered node starts editing: text nodes
and fragments install no double-click handler; an element installs one iff
`children.find(c => c.type === 'text')` finds a direct text child, and the
handler targets that child's id. -/
def dblClickTarget (n : EditorNode) : Option Nat :=
  if n.type = NodeType.text then none
  else if n.tagName = some "Fragment" then none
  else
    match n.children.findText with
    | some c => some c.id
    | none => none

/-! ## The grammar front end and `parseJSX` (`lib/parser.ts`)

The source delegates grammar-level parsing to `@babel/parser` and walks the
resulting AST. Here the front end is embedded directly for the dialect
subset the tool accepts: elements, fragments, text, string/number/boolean
attribute values, shallow object literals, template literals, and opaque
(unsupported) embedded expressions. `none` stands for the front end
throwing a `SyntaxError`. Out-of-model corners, which no theorem below
touches: HTML entities in text, non-integral numeric literals, and
syntactically invalid JavaScript inside an expression container (modelled
as an unsupported-but-parseable expression). -/

/-- A shallow object-literal member value as the converter classifies it
(`extractObjectExpression` keeps string/number/boolean literals and drops
everything else). -/
inductive ObjVal where
  | str (s : String)
  | num (n : Int)
  | bool (b : Bool)
  | other
deriving DecidableEq, Repr

/-- A JSX attribute value as the converter classifies it
(`extractProps`). -/
inductive AttrVal where
  | bare
  | strLit (s : String)
  | exprStr (s : String)
  | exprNum (n : Int)
  | exprBool (b : Bool)
  | exprObj (ps : List (String × ObjVal))
  | exprTpl (s : String)
  | exprOther
deriving DecidableEq, Repr

/-- A JSX attribute: a named attribute or a spread attribute (the latter is
skipped by `extractProps`). -/
inductive JSXAttr where
  | attr (name : String) (v : AttrVal)
  | spreadAttr
deriving DecidableEq, Repr

mutual

/-- A node of the grammar front end's AST, restricted to the shapes the
converter distinguishes. -/
inductive JSX where
  | elem (tag : String) (attrs : List JSXAttr) (children : JSXList)
  | frag (children : JSXList)
  | textChild (raw : String)
  | exprStrChild (s : String)
  | exprTplChild (s : String)
  | exprOtherChild
deriving DecidableEq, Repr

/-- A children array of the front end's AST. -/
inductive JSXList where
  | nil
  | cons (head : JSX) (tail : JSXList)
deriving DecidableEq, Repr

end

/-- The single-quote character. -/
def sq : Char := Char.ofNat 39

/-- The backtick character. -/
def bq : Char := Char.ofNat 96

/-- Leading whitespace removal. -/
def skipWs (l : List Char) : List Char :=
  l.dropWhile isJsWs

/-- First character of a JSX name. -/
def isNameStartChar (c : Char) : Bool :=
  c.isAlpha || c = '_' || c = '$'

/-- Continuation character of a JSX name (member and namespaced names are
flattened to `a.b` / `a:b` by `getTagName`, so `.` and `:` are name
characters here, and attribute names may contain `-`). -/
def isNameContChar (c : Char) : Bool :=
  c.isAlpha || c.isDigit || c = '_' || c = '$' || c = '.' || c = ':' || c = '-'

/-- Parse a JSX element or attribute name. -/
def parseName (l : List Char) : Option (String × List Char) :=
  match l with
  | c :: _ =>
    if isNameStartChar c then
      let nm := l.takeWhile isNameContChar
      some (⟨nm⟩, l.drop nm.length)
    else none
  | [] => none

/-- Continuation character of a JS identifier. -/
def isIdentChar (c : Char) : Bool :=
  isWordChar c || c = '$'

/-- Parse a JS identifier (object keys, `true`/`false`). -/
def parseIdent (l : List Char) : Option (String × List Char) :=
  match l with
  | c :: _ =>
    if isNameStartChar c then
      let nm := l.takeWhile isIdentChar
      some (⟨nm⟩, l.drop nm.length)
    else none
  | [] => none

/-- Raw string body up to the closing quote: JSX attribute strings have no
escape sequences, every character up to the terminator is literal. -/
def rawStrUntil (q : Char) : List Char → Option (List Char × List Char)
  | [] => none
  | c :: rest =>
    if c = q then some ([], rest)
    else
      match rawStrUntil q rest with
      | some (body, r) => some (c :: body, r)
      | none => none

/-- JS escape translation (the common escapes; an unrecognized escape is the
character itself, as in JS). -/
def escTr (c : Char) : Char :=
  if c = 'n' then '\n' else if c = 't' then '\t' else if c = 'r' then '\r' else c

/-- JS string-literal body up to the closing quote, escape sequences
processed. -/
def escStrUntil (q : Char) : List Char → Option (List Char × List Char)
  | [] => none
  | '\\' :: e :: rest =>
    match escStrUntil q rest with
    | some (body, r) => some (escTr e :: body, r)
    | none => none
  | c :: rest =>
    if c = q then some ([], rest)
    else
      match escStrUntil q rest with
      | some (body, r) => some (c :: body, r)
      | none => none

/-- Consume a quoted body (escapes skipped) up to the closing quote,
returning the remainder. -/
def skipStrBody (q : Char) : List Char → Option (List Char)
  | [] => none
  | '\\' :: _ :: rest => skipStrBody q rest
  | c :: rest => if c = q then some rest else skipStrBody q rest

/-- Skip a brace-balanced stretch, respecting quoted strings, up to and
including the closing brace at the given depth. -/
def balancedSkip : Nat → Nat → List Char → Option (List Char)
  | 0, _, _ => none
  | fuel + 1, depth, l =>
    match l with
    | [] => none
    | c :: rest =>
      if c = '\x7d' then
        if depth = 0 then some rest else balancedSkip fuel (depth - 1) rest
      else if c = '\x7b' then balancedSkip fuel (depth + 1) rest
      else if c = '"' || c = sq || c = bq then
        match skipStrBody c rest with
        | some r => balancedSkip fuel depth r
        | none => none
      else balancedSkip fuel depth rest

/-- Skip one object-literal member value: stop before a `,` or the closing
brace at depth 0, balancing brackets and respecting strings. -/
def skipValue : Nat → Nat → List Char → Option (List Char)
  | 0, _, _ => none
  | fuel + 1, depth, l =>
    match l with
    | [] => none
    | c :: rest =>
      if depth = 0 && (c = ',' || c = '\x7d') then some l
      else if c = '\x7b' || c = '[' || c = '(' then skipValue fuel (depth + 1) rest
      else if c = '\x7d' || c = ']' || c = ')' then
        if depth = 0 then none else skipValue fuel (depth - 1) rest
      else if c = '"' || c = sq || c = bq then
        match skipStrBody c rest with
        | some r => skipValue fuel depth r
        | none => none
      else skipValue fuel depth rest

/-- An integer literal: one or more digits not continuing into a fraction
or identifier characters. -/
def parseIntLit (l : List Char) : Option (Int × List Char) :=
  let ds := l.takeWhile (·.isDigit)
  if ds.isEmpty then none
  else
    match l.drop ds.length with
    | [] => some ((digitsToNat ds : Nat), [])
    | c :: rest =>
      if c = '.' || isIdentChar c then none
      else some ((digitsToNat ds : Nat), c :: rest)

/-- Template-literal body: the concatenated raw text of the quasis
(backslash sequences stay verbatim in the raw value, and each `${...}`
expression is a quasi boundary whose content is skipped). -/
def tplBody : Nat → List Char → Option (List Char × List Char)
  | 0, _ => none
  | fuel + 1, l =>
    match l with
    | [] => none
    | '\\' :: e :: rest =>
      match tplBody fuel rest with
      | some (body, r) => some ('\\' :: e :: body, r)
      | none => none
    | '$' :: '\x7b' :: rest =>
      match balancedSkip fuel 0 rest with
      | some r => tplBody fuel r
      | none => none
    | c :: rest =>
      if c = bq then some ([], rest)
      else
        match tplBody fuel rest with
        | some (body, r) => some (c :: body, r)
        | none => none

/-- An embedded expression as classified by the converter's checks. -/
inductive ExprKind where
  | eStr (s : String)
  | eNum (n : Int)
  | eBool (b : Bool)
  | eObj (ps : List (String × ObjVal))
  | eTpl (s : String)
  | eOther
deriving DecidableEq, Repr

/-- One object-literal member value, classified like
`extractObjectExpression` does (literal string/number/boolean kept,
anything else an opaque value). -/
def parseObjVal (fuel : Nat) (l : List Char) : Option (ObjVal × List Char) :=
  let l := skipWs l
  match l with
  | [] => none
  | c :: rest =>
    if c = '"' || c = sq then
      match escStrUntil c rest with
      | some (body, r) => some (.str ⟨body⟩, r)
      | none => none
    else if c.isDigit then
      match parseIntLit l with
      | some (n, r) => some (.num n, r)
      | none =>
        match skipValue fuel 0 l with
        | some r => some (.other, r)
        | none => none
    else
      match parseIdent l with
      | some ("true", r) => some (.bool true, r)
      | some ("false", r) => some (.bool false, r)
      | _ =>
        match skipValue fuel 0 l with
        | some r => some (.other, r)
        | none => none

/-- The members of an object literal, after its opening brace. A key is an
identifier or a string literal (kept), or a numeric literal (its member is
dropped, as `extractObjectExpression`'s key check does). -/
def parseObjProps (fuel0 : Nat) (l0 : List Char) : Option (List (String × ObjVal) × List Char) :=
  match fuel0 with
  | 0 => none
  | fuel + 1 =>
    let l := skipWs l0
    match l with
    | [] => none
    | '\x7d' :: rest => some ([], rest)
    | c :: rest =>
      let keyParse : Option (Option String × List Char) :=
        if c = '"' || c = sq then
          match escStrUntil c rest with
          | some (body, r) => some (some ⟨body⟩, r)
          | none => none
        else if c.isDigit then
          match parseIntLit l with
          | some (_, r) => some (none, r)
          | none => none
        else
          match parseIdent l with
          | some (nm, r) => some (some nm, r)
          | none => none
      match keyParse with
      | none => none
      | some (key?, r1) =>
        match skipWs r1 with
        | ':' :: r2 =>
          match parseObjVal fuel r2 with
          | none => none
          | some (v, r3) =>
            let entry : List (String × ObjVal) :=
              match key? with
              | some k => [(k, v)]
              | none => []
            match skipWs r3 with
            | ',' :: r4 =>
              match parseObjProps fuel r4 with
              | some (ps, r5) => some (entry ++ ps, r5)
              | none => none
            | '\x7d' :: r4 => some (entry, r4)
            | _ => none
        | _ => none

/-- The expression inside a `{...}` container, classified by the converter's
literal checks; everything else (including the empty expression) is
unsupported. On a non-literal expression the container is skipped through
its closing brace. -/
def parseExprContainer (fuel0 : Nat) (l0 : List Char) : Option (ExprKind × List Char) :=
  match fuel0 with
  | 0 => none
  | fuel + 1 =>
    let l := skipWs l0
    match l with
    | [] => none
    | '\x7d' :: rest => some (.eOther, rest)
    | c :: rest =>
      if c = '"' || c = sq then
        match escStrUntil c rest with
        | some (body, r) =>
          match skipWs r with
          | '\x7d' :: r2 => some (.eStr ⟨body⟩, r2)
          | r2 =>
            match balancedSkip fuel 0 r2 with
            | some r3 => some (.eOther, r3)
            | none => none
        | none => none
      else if c.isDigit then
        match parseIntLit l with
        | some (n, r) =>
          match skipWs r with
          | '\x7d' :: r2 => some (.eNum n, r2)
          | r2 =>
            match balancedSkip fuel 0 r2 with
            | some r3 => some (.eOther, r3)
            | none => none
        | none =>
          match balancedSkip fuel 0 l with
          | some r => some (.eOther, r)
          | none => none
      else if c = bq then
        match tplBody fuel rest with
        | some (body, r) =>
          match skipWs r with
          | '\x7d' :: r2 => some (.eTpl ⟨body⟩, r2)
          | r2 =>
            match balancedSkip fuel 0 r2 with
            | some r3 => some (.eOther, r3)
            | none => none
        | none => none
      else if c = '\x7b' then
        match parseObjProps fuel rest with
        | some (ps, r) =>
          match skipWs r with
          | '\x7d' :: r2 => some (.eObj ps, r2)
          | r2 =>
            match balancedSkip fuel 0 r2 with
            | some r3 => some (.eOther, r3)
            | none => none
        | none => none
      else
        match parseIdent l with
        | some ("true", r) =>
          match skipWs r with
          | '\x7d' :: r2 => some (.eBool true, r2)
          | r2 =>
            match balancedSkip fuel 0 r2 with
            | some r3 => some (.eOther, r3)
            | none => none
        | some ("false", r) =>
          match skipWs r with
          | '\x7d' :: r2 => some (.eBool false, r2)
          | r2 =>
            match balancedSkip fuel 0 r2 with
            | some r3 => some (.eOther, r3)
            | none => none
        | _ =>
          match balancedSkip fuel 0 l with
          | some r => some (.eOther, r)
          | none => none

/-- An expression-container attribute value from its classified
expression. -/
def exprKindToAttrVal : ExprKind → AttrVal
  | .eStr s => .exprStr s
  | .eNum n => .exprNum n
  | .eBool b => .exprBool b
  | .eObj ps => .exprObj ps
  | .eTpl s => .exprTpl s
  | .eOther => .exprOther

/-- The attribute list of an opening tag, stopping before `/` or `>`. -/
def parseAttrs (fuel0 : Nat) (l0 : List Char) : Option (List JSXAttr × List Char) :=
  match fuel0 with
  | 0 => none
  | fuel + 1 =>
    let l := skipWs l0
    match l with
    | [] => none
    | '/' :: _ => some ([], l)
    | '>' :: _ => some ([], l)
    | '\x7b' :: rest =>
      match balancedSkip fuel 0 rest with
      | some r =>
        match parseAttrs fuel r with
        | some (attrs, r2) => some (.spreadAttr :: attrs, r2)
        | none => none
      | none => none
    | _ =>
      match parseName l with
      | none => none
      | some (nm, r1) =>
        match skipWs r1 with
        | '=' :: r2 =>
          match skipWs r2 with
          | [] => none
          | c :: r3 =>
            if c = '"' || c = sq then
              match rawStrUntil c r3 with
              | some (body, r4) =>
                match parseAttrs fuel r4 with
                | some (attrs, r5) => some (.attr nm (.strLit ⟨body⟩) :: attrs, r5)
                | none => none
              | none => none
            else if c = '\x7b' then
              match parseExprContainer fuel r3 with
              | some (k, r4) =>
                match parseAttrs fuel r4 with
                | some (attrs, r5) => some (.attr nm (exprKindToAttrVal k) :: attrs, r5)
                | none => none
              | none => none
            else none
        | r2 =>
          match parseAttrs fuel r2 with
          | some (attrs, r3) => some (.attr nm .bare :: attrs, r3)
          | none => none

mutual

/-- One JSX element or fragment, starting at its `<`. The closing tag name
must match the opening one. -/
def parseElement (fuel0 : Nat) (l : List Char) : Option (JSX × List Char) :=
  match fuel0 with
  | 0 => none
  | fuel + 1 =>
    match l with
    | '<' :: '>' :: r1 =>
      match parseChildren fuel r1 with
      | some (cs, r2) =>
        match r2 with
        | '<' :: '/' :: r3 =>
          match skipWs r3 with
          | '>' :: r4 => some (.frag cs, r4)
          | _ => none
        | _ => none
      | none => none
    | '<' :: r0 =>
      match parseName r0 with
      | none => none
      | some (tag, r1) =>
        match parseAttrs fuel r1 with
        | none => none
        | some (attrs, r2) =>
          match r2 with
          | '/' :: '>' :: r3 => some (.elem tag attrs .nil, r3)
          | '>' :: r3 =>
            match parseChildren fuel r3 with
            | some (cs, r4) =>
              match r4 with
              | '<' :: '/' :: r5 =>
                match parseName r5 with
                | some (closeTag, r6) =>
                  if closeTag = tag then
                    match skipWs r6 with
                    | '>' :: r7 => some (.elem tag attrs cs, r7)
                    | _ => none
                  else none
                | none => none
              | _ => none
            | none => none
          | _ => none
    | _ => none

/-- The children of an element or fragment, stopping before `</`. A stray
`>` or closing brace in text is a grammar error, as in the real front
end. -/
def parseChildren (fuel0 : Nat) (l : List Char) : Option (JSXList × List Char) :=
  match fuel0 with
  | 0 => none
  | fuel + 1 =>
    match l with
    | [] => none
    | '<' :: '/' :: _ => some (.nil, l)
    | '<' :: _ =>
      match parseElement fuel l with
      | some (child, r) =>
        match parseChildren fuel r with
        | some (cs, r2) => some (.cons child cs, r2)
        | none => none
      | none => none
    | '\x7b' :: rest =>
      match parseExprContainer fuel rest with
      | some (k, r) =>
        let child : JSX :=
          match k with
          | .eStr s => .exprStrChild s
          | .eTpl s => .exprTplChild s
          | _ => .exprOtherChild
        match parseChildren fuel r with
        | some (cs, r2) => some (.cons child cs, r2)
        | none => none
      | none => none
    | _ =>
      let t := l.takeWhile (fun c => !(c = '<' || c = '\x7b' || c = '>' || c = '\x7d'))
      match l.drop t.length with
      | '>' :: _ => none
      | '\x7d' :: _ => none
      | rest =>
        if t.isEmpty then none
        else
          match parseChildren fuel rest with
          | some (cs, r2) => some (.cons (.textChild ⟨t⟩) cs, r2)
          | none => none

end

/-- The grammar front end on a trimmed input: the first top-level JSX
element or fragment; whatever follows it is ignored, as the source converts
only the first root-level node. `none` models `parser.parse` throwing. -/
def babelParse (s : String) : Option JSX :=
  match parseElement ((s.toList.length + 16) * 8) s.toList with
  | some (ast, _) => some ast
  | none => none

/-! ### Conversion to `EditorNode` (`convertJSXElement`, `convertChildren`) -/

/-- The `extractObjectExpression` body: assign each literal-valued member. -/
def extractObjGo (acc : PropList) : List (String × ObjVal) → PropList
  | [] => acc
  | (k, .str s) :: t => extractObjGo (acc.set k (.str s)) t
  | (k, .num n) :: t => extractObjGo (acc.set k (.num n)) t
  | (k, .bool b) :: t => extractObjGo (acc.set k (.bool b)) t
  | (_, .other) :: t => extractObjGo acc t

/-- Embedding of `extractObjectExpression(expr)`. -/
def extractObjectExpression (ps : List (String × ObjVal)) : PropList :=
  extractObjGo .nil ps

/-- The `extractProps` body: assign each supported attribute value; spread
attributes and unsupported expression shapes are skipped. -/
def extractPropsGo (acc : PropList) : List JSXAttr → PropList
  | [] => acc
  | .spreadAttr :: t => extractPropsGo acc t
  | .attr nm v :: t =>
    match v with
    | .bare => extractPropsGo (acc.set nm (.bool true)) t
    | .strLit s => extractPropsGo (acc.set nm (.str s)) t
    | .exprStr s => extractPropsGo (acc.set nm (.str s)) t
    | .exprNum n => extractPropsGo (acc.set nm (.num n)) t
    | .exprBool b => extractPropsGo (acc.set nm (.bool b)) t
    | .exprObj ps => extractPropsGo (acc.set nm (.obj (extractObjectExpression ps))) t
    | .exprTpl s => extractPropsGo (acc.set nm (.str s)) t
    | .exprOther => extractPropsGo acc t

/-- Embedding of `extractProps(attributes)`. -/
def extractProps (attrs : List JSXAttr) : PropList :=
  extractPropsGo .nil attrs

mutual

/-- One loop step of `convertChildren`, also covering `convertJSXElement`
and `convertJSXFragment`: the node pushed for this AST child (with the next
fresh id), or `none` when the child is skipped. The element's own id is
drawn after its children's, matching the source's order of `uuidv4()`
calls. -/
def convertChildOne : JSX → Nat → Option (EditorNode × Nat)
  | .elem tag attrs cs, n =>
    let pr := convertChildren cs n
    some (.mk pr.2 .element (some tag) (extractProps attrs) pr.1 none, pr.2 + 1)
  | .frag cs, n =>
    let pr := convertChildren cs n
    some (.mk pr.2 .element (some "Fragment") .nil pr.1 none, pr.2 + 1)
  | .textChild raw, n =>
    let t := jsTrim raw
    if t = "" then none
    else some (.mk n .text none .nil .nil (some t), n + 1)
  | .exprStrChild s, n => some (.mk n .text none .nil .nil (some s), n + 1)
  | .exprTplChild s, n =>
    if jsTrim s = "" then none
    else some (.mk n .text none .nil .nil (some s), n + 1)
  | .exprOtherChild, _ => none

/-- Embedding of `convertChildren(children)` with the fresh-id counter threaded through. -/
def convertChildren : JSXList → Nat → NodeList × Nat
  | .nil, n => (.nil, n)
  | .cons c rest, n =>
    match convertChildOne c n with
    | some (node, n1) =>
      let pr := convertChildren rest n1
      (.cons node pr.1, pr.2)
    | none => convertChildren rest n

end

/-- The body of `parseJSX` before its `catch`: reject non-markup input with
`null` (`ok none`), surface a front-end failure as the thrown exception,
and otherwise convert the root. -/
def parseJSXBody (code : String) : Except String (Option EditorNode) :=
  let wrappedCode := jsTrim code
  if ¬ startsWithLt wrappedCode then .ok none
  else
    match babelParse wrappedCode with
    | none => .error "SyntaxError"
    | some ast =>
      match convertChildOne ast 0 with
      | some (t, _) => .ok (some t)
      | none => .ok none

/-- Embedding of `parseJSX(code)`: the body with its `catch` converting any thrown
exception to `null`. -/
def parseJSX (code : String) : Option EditorNode :=
  match parseJSXBody code with
  | .ok r => r
  | .error _ => none

/-! ## The editor's parse effect (`WebsiteEditor`, parse-on-change) -/

/-- The outcome of the editor's parse effect: a new tree installed, the
invalid-input message for non-empty unparseable input, a cleared state for
empty input, or the `catch` branch's parse-error message. -/
inductive EditorOutcome where
  | installed (t : EditorNode)
  | invalidInput
  | cleared
  | parseError (msg : String)
deriving DecidableEq, Repr

/-- The editor's parse effect: `parseJSX` is total, so the `try` body always
completes and the `catch` branch producing `parseError` is never entered. -/
def editorParseEffect (code : String) : EditorOutcome :=
  match parseJSX code with
  | some t => .installed t
  | none => if jsTrim code ≠ "" then .invalidInput else .cleared

/-! ## Association-list lemmas -/

namespace PropList

theorem get_set_self : ∀ (l : PropList) (k : String) (v : PropValue),
    (l.set k v).get k = some v := by
  intro l k v
  match l with
  | .nil => simp [set, get]
  | .cons k' v' t =>
    by_cases h : k' = k
    · simp [set, h, get]
    · simp [set, h, get, get_set_self t k v]

theorem get_set_ne : ∀ (l : PropList) (k k' : String) (v : PropValue), k' ≠ k →
    (l.set k' v).get k = l.get k := by
  intro l k k' v hne
  match l with
  | .nil => simp [set, get, hne]
  | .cons k0 v0 t =>
    by_cases h : k0 = k'
    · subst h
      simp [set, get, hne]
    · by_cases h2 : k0 = k
      · have hkk' : ¬ (k = k') := fun hh => hne hh.symm
        simp [set, h, get, h2, hkk']
      · simp [set, h, get, h2, get_set_ne t k k' v hne]

theorem get_none_of_not_mem : ∀ (l : PropList) (k : String), k ∉ l.keys →
    l.get k = none := by
  intro l k h
  match l with
  | .nil => rfl
  | .cons k0 v0 t =>
    simp only [keys, List.mem_cons] at h
    push_neg at h
    have h0 : ¬ (k0 = k) := fun hh => h.1 hh.symm
    simp [get, h0, get_none_of_not_mem t k h.2]

theorem append_assoc : ∀ (a b c : PropList),
    (a.append b).append c = a.append (b.append c) := by
  intro a b c
  match a with
  | .nil => rfl
  | .cons k v t => simp [append, append_assoc t b c]

theorem set_of_not_mem : ∀ (l : PropList) (k : String) (v : PropValue), k ∉ l.keys →
    l.set k v = l.append (.cons k v .nil) := by
  intro l k v h
  match l with
  | .nil => rfl
  | .cons k0 v0 t =>
    simp only [keys, List.mem_cons] at h
    push_neg at h
    have h0 : ¬ (k0 = k) := fun hh => h.1 hh.symm
    simp [set, h0, append, set_of_not_mem t k v h.2]

theorem keys_set_mem : ∀ (l : PropList) (k : String) (v : PropValue), k ∈ l.keys →
    (l.set k v).keys = l.keys := by
  intro l k v h
  match l with
  | .nil => simp [keys] at h
  | .cons k0 v0 t =>
    by_cases h0 : k0 = k
    · simp [set, h0, keys]
    · simp only [keys, List.mem_cons] at h
      rcases h with h | h

      · exact absurd h.symm h0
      · simp [set, h0, keys, keys_set_mem t k v h]

theorem keys_set_not_mem : ∀ (l : PropList) (k : String) (v : PropValue), k ∉ l.keys →
    (l.set k v).keys = l.keys ++ [k] := by
  intro l k v h
  match l with
  | .nil => rfl
  | .cons k0 v0 t =>
    simp only [keys, List.mem_cons] at h
    push_neg at h
    have h0 : ¬ (k0 = k) := fun hh => h.1 hh.symm
    simp [set, h0, keys, keys_set_not_mem t k v h.2]

theorem keys_set_nodup : ∀ (l : PropList) (k : String) (v : PropValue),
    l.keys.Nodup → (l.set k v).keys.Nodup := by
  intro l k v h
  by_cases hm : k ∈ l.keys
  · rw [keys_set_mem l k v hm]; exact h
  · rw [keys_set_not_mem l k v hm]
    simp [List.nodup_append, h, hm]

theorem keys_spreadOnto_nodup : ∀ (m acc : PropList),
    acc.keys.Nodup → (acc.spreadOnto m).keys.Nodup := by
  intro m acc h
  match m with
  | .nil => exact h
  | .cons k v t =>
    exact keys_spreadOnto_nodup t (acc.set k v) (keys_set_nodup acc k v h)

theorem spreadOnto_of_fresh : ∀ (m acc : PropList), m.keys.Nodup →
    (∀ k ∈ m.keys, k ∉ acc.keys) → acc.spreadOnto m = acc.append m := by
  intro m acc hnd hfr
  match m with
  | .nil =>
    show acc = acc.append .nil
    match acc with
    | .nil => rfl
    | .cons k v t =>
      have := spreadOnto_of_fresh .nil t (by simp [keys]) (by simp [keys])
      simp [append]
      simpa [spreadOnto, append] using this
  | .cons k v t =>
    simp only [keys, List.nodup_cons] at hnd
    have hk : k ∉ acc.keys := hfr k (by simp [keys])
    have hstep : acc.set k v = acc.append (.cons k v .nil) := set_of_not_mem acc k v hk
    have hfr' : ∀ j ∈ t.keys, j ∉ (acc.set k v).keys := by
      intro j hj
      rw [keys_set_not_mem acc k v hk]
      simp only [List.mem_append, List.mem_singleton]
      push_neg
      exact ⟨hfr j (by simp [keys, hj]), fun hjk => hnd.1 (hjk ▸ hj)⟩
    calc acc.spreadOnto (.cons k v t)
        = (acc.set k v).spreadOnto t := rfl
      _ = (acc.set k v).append t := spreadOnto_of_fresh t (acc.set k v) hnd.2 hfr'
      _ = (acc.append (.cons k v .nil)).append t := by rw [hstep]
      _ = acc.append (.cons k v t) := by rw [append_assoc]; rfl

theorem nil_spreadOnto_of_nodup (m : PropList) (h : m.keys.Nodup) :
    PropList.nil.spreadOnto m = m := by
  have := spreadOnto_of_fresh m .nil h (by intro k _; simp [keys])
  rw [this]
  rfl

theorem set_get_self : ∀ (l : PropList) (k : String) (v : PropValue),
    l.get k = some v → l.set k v = l := by
  intro l k v h
  match l with
  | .nil => simp [get] at h
  | .cons k0 v0 t =>
    by_cases h0 : k0 = k
    · simp only [get, if_pos h0] at h
      cases h
      simp [set, h0]
    · simp only [get, if_neg h0] at h
      simp [set, h0, set_get_self t k v h]

theorem get_spreadOnto_not_mem : ∀ (m acc : PropList) (k : String), k ∉ m.keys →
    (acc.spreadOnto m).get k = acc.get k := by
  intro m acc k h
  match m with
  | .nil => rfl
  | .cons k0 v0 t =>
    simp only [keys, List.mem_cons] at h
    push_neg at h
    rw [show acc.spreadOnto (.cons k0 v0 t) = (acc.set k0 v0).spreadOnto t from rfl]
    rw [get_spreadOnto_not_mem t (acc.set k0 v0) k h.2]
    exact get_set_ne acc k k0 v0 h.1.symm

theorem get_spreadOnto_mem : ∀ (m acc : PropList) (k : String), m.keys.Nodup →
    k ∈ m.keys → (acc.spreadOnto m).get k = m.get k := by
  intro m acc k hnd hm
  match m with
  | .nil => simp [keys] at hm
  | .cons k0 v0 t =>
    simp only [keys, List.nodup_cons] at hnd
    simp only [keys, List.mem_cons] at hm
    rw [show acc.spreadOnto (.cons k0 v0 t) = (acc.set k0 v0).spreadOnto t from rfl]
    by_cases ht : k ∈ t.keys
    · rw [get_spreadOnto_mem t (acc.set k0 v0) k hnd.2 ht]
      have : k0 ≠ k := fun hh => hnd.1 (hh ▸ ht)
      simp [get, this]
    · have hk0 : k = k0 := by
        rcases hm with hm | hm
        · exact hm
        · exact absurd hm ht
      subst hk0
      rw [get_spreadOnto_not_mem t (acc.set k v0) k ht]
      rw [get_set_self]
      simp [get]

end PropList

/-! ## C3: missing-id mutations are no-ops -/

mutual

theorem updateNodeStyle_not_mem_aux : ∀ (t : EditorNode) (i : Nat)
    (upd : List (String × String)), i ∉ collectIds t → updateNodeStyle t i upd = t := by
  intro t i upd h
  match t with
  | .mk nid ty tag props cs tx =>
    simp only [collectIds, List.mem_cons] at h
    push_neg at h
    have h0 : ¬ (nid = i) := fun hh => h.1 hh.symm
    simp [updateNodeStyle, h0, updateNodeStyleL_not_mem_aux cs i upd h.2]

theorem updateNodeStyleL_not_mem_aux : ∀ (l : NodeList) (i : Nat)
    (upd : List (String × String)), i ∉ collectIdsL l → updateNodeStyleL l i upd = l := by
  intro l i upd h
  match l with
  | .nil => rfl
  | .cons c t =>
    simp only [collectIdsL, List.mem_append] at h
    push_neg at h
    simp [updateNodeStyleL, updateNodeStyle_not_mem_aux c i upd h.1,
      updateNodeStyleL_not_mem_aux t i upd h.2]

end

mutual

theorem updateNodeText_not_mem_aux : ∀ (t : EditorNode) (i : Nat) (s : String),
    i ∉ collectIds t → updateNodeText t i s = t := by
  intro t i s h
  match t with
  | .mk nid ty tag props cs tx =>
    simp only [collectIds, List.mem_cons] at h
    push_neg at h
    have h0 : ¬ (nid = i) := fun hh => h.1 hh.symm
    simp [updateNodeText, h0, updateNodeTextL_not_mem_aux cs i s h.2]

theorem updateNodeTextL_not_mem_aux : ∀ (l : NodeList) (i : Nat) (s : String),
    i ∉ collectIdsL l → updateNodeTextL l i s = l := by
  intro l i s h
  match l with
  | .nil => rfl
  | .cons c t =>
    simp only [collectIdsL, List.mem_append] at h
    push_neg at h
    simp [updateNodeTextL, updateNodeText_not_mem_aux c i s h.1,
      updateNodeTextL_not_mem_aux t i s h.2]

end

/-- C3: for every tree and every id not present in that tree,
`updateNodeStyle(tree, id, updates)` and `updateNodeText(tree, id, text)`
are no-ops returning the tree unchanged (and, being total functions of the
embedding, neither operation can throw on any input). -/
theorem update_missing_id_noop (t : EditorNode) (i : Nat)
    (upd : List (String × String)) (s : String) (h : i ∉ collectIds t) :
    updateNodeStyle t i upd = t ∧ updateNodeText t i s = t :=
  ⟨updateNodeStyle_not_mem_aux t i upd h, updateNodeText_not_mem_aux t i s h⟩

/-- Witness for C3 at a concrete tree and missing id. -/
theorem update_missing_id_noop_witness :
    updateNodeStyle (.mk 0 .element (some "div") .nil .nil none) 5
        [("color", "#fff")] = .mk 0 .element (some "div") .nil .nil none ∧
    updateNodeText (.mk 0 .element (some "div") .nil .nil none) 5 "x"
        = .mk 0 .element (some "div") .nil .nil none :=
  update_missing_id_noop (.mk 0 .element (some "div") .nil .nil none) 5
    [("color", "#fff")] "x" (by decide)

/-! ## C4: inline styles win over class-derived styles -/

/-- C4: the panel's resolved style map is
`{ ...classStyles, ...inlineStyles }` with inline applied last, so every key
present in both resolves to the inline value. -/
theorem resolved_style_inline_wins (n : EditorNode) (k : String)
    (_hc : k ∈ (classStylesOfNode n).keys)
    (hi : k ∈ (extractStyleFromNode n).keys) :
    (resolvedStyle n).get k = (extractStyleFromNode n).get k := by
  have hnd : (extractStyleFromNode n).keys.Nodup :=
    PropList.keys_spreadOnto_nodup _ _ (by simp [PropList.keys])
  unfold resolvedStyle mergeSpread
  exact PropList.get_spreadOnto_mem _ _ _ hnd hi

/-- Witness for C4: an element with class list `bg-blue-500` and inline
`style={{backgroundColor: "#fff"}}` resolves its background color to
`#fff`. -/
theorem resolved_style_inline_wins_witness :
    (resolvedStyle (.mk 0 .element (some "div")
        (.cons "className" (.str "bg-blue-500")
          (.cons "style" (.obj (.cons "backgroundColor" (.str "#fff") .nil)) .nil))
        .nil none)).get "backgroundColor" = some (.str "#fff") :=
  (resolved_style_inline_wins
    (.mk 0 .element (some "div")
      (.cons "className" (.str "bg-blue-500")
        (.cons "style" (.obj (.cons "backgroundColor" (.str "#fff") .nil)) .nil))
      .nil none)
    "backgroundColor" (by decide) (by decide)).trans (by decide)

/-! ## C5: concrete class-to-style resolution -/

/-- C5: resolving `text-3xl font-bold text-white` yields exactly
`fontSize: 30px, fontWeight: bold, color: #ffffff`, and resolving
`p-6 bg-blue-500 rounded-lg` yields exactly
`padding: 24px, backgroundColor: #3b82f6, borderRadius: 8px`. -/
theorem concrete_class_resolution :
    getComputedStylesFromClassName "text-3xl font-bold text-white"
      = [("fontSize", "30px"), ("fontWeight", "bold"), ("color", "#ffffff")] ∧
    getComputedStylesFromClassName "p-6 bg-blue-500 rounded-lg"
      = [("padding", "24px"), ("backgroundColor", "#3b82f6"), ("borderRadius", "8px")] := by
  constructor
  · decide
  · decide

/-! ## C1: the parse/serialize round trip fails on conformant input

The dialect supports an embedded string expression as a child (spec §4.1),
so `<div>{"a"}{"b"}</div>` is dialect-conformant and parses to an element
with two text children. Serializing prints the two texts on separate
indented lines, and re-parsing merges them into a single trimmed text
child, changing both the nesting and the text content. -/

/-- The failing input for the round-trip property. -/
def roundTripInput : String := "<div>\x7b\"a\"\x7d\x7b\"b\"\x7d</div>"

/-- The tree `parseJSX` produces for `roundTripInput`: two text children. -/
def roundTripTree : EditorNode :=
  .mk 2 .element (some "div") .nil
    (.cons (.mk 0 .text none .nil .nil (some "a"))
      (.cons (.mk 1 .text none .nil .nil (some "b")) .nil))
    none

/-- The tree obtained by re-parsing the serializer's output: one merged
text child. -/
def roundTripReparsed : EditorNode :=
  .mk 1 .element (some "div") .nil
    (.cons (.mk 0 .text none .nil .nil (some "a\n  b")) .nil)
    none

/-- C1: evaluation of the code at the failing input
`<div>{"a"}{"b"}</div>`: the parsed tree has two text children, the
serializer prints them on separate lines, and re-parsing the output yields
a tree with a single merged text child — not structurally equal to the
original, contradicting the round-trip property. -/
theorem roundtrip_fails_on_conformant_input :
    parseJSX roundTripInput = some roundTripTree ∧
    serializeToJSX roundTripTree 0 = "<div>\n  a\n  b\n</div>" ∧
    parseJSX "<div>\n  a\n  b\n</div>" = some roundTripReparsed ∧
    structEq roundTripTree roundTripReparsed = false := by
  refine ⟨by decide, by decide, by decide, by decide⟩

/-! ## C6: grammar failure is not signalled distinctly from non-markup -/

/-- C6 counterexample: a non-markup input (`hello`, rejected before the
front end runs) and a grammar-level failure (`<div`, the front end throws)
produce the identical result `null`; the claimed distinct signalling does
not exist. -/
theorem parse_failure_not_distinct :
    startsWithLt (jsTrim "hello") = false ∧
    startsWithLt (jsTrim "<div") = true ∧
    babelParse (jsTrim "<div") = none ∧
    parseJSX "hello" = parseJSX "<div" ∧
    parseJSX "hello" = none := by
  refine ⟨by decide, by decide, by decide, by decide, by decide⟩

/-- C6 (amended): `parseJSX` returns `null` uniformly for grammar-level
failures and for non-markup input; the caller distinguishes only empty from
non-empty input, presenting the same invalid-input message for every
non-empty input on which `parseJSX` returns `null`. -/
theorem parse_failure_uniform_message (s1 s2 : String)
    (h1 : parseJSX s1 = none) (h2 : parseJSX s2 = none)
    (h3 : jsTrim s1 ≠ "") (h4 : jsTrim s2 ≠ "") :
    editorParseEffect s1 = EditorOutcome.invalidInput ∧
    editorParseEffect s1 = editorParseEffect s2 := by
  unfold editorParseEffect
  rw [h1, h2]
  simp [h3, h4]

/-- Witness for the amended C6 at the counterexample's two inputs. -/
theorem parse_failure_uniform_message_witness :
    editorParseEffect "hello" = EditorOutcome.invalidInput ∧
    editorParseEffect "hello" = editorParseEffect "<div" :=
  parse_failure_uniform_message "hello" "<div" (by decide) (by decide)
    (by decide) (by decide)

/-! ## C10: totality of parsing and unreachability of the editor's catch -/

/-- C10: `parseJSX` never throws — for every input it returns a tree or
`null` (its internal `catch` converts any front-end exception to `null`),
so the editor's parse effect always ends in one of the three non-error
outcomes and its `parseError` branch is unreachable. -/
theorem parse_total_catch_unreachable (code : String) :
    (∃ t, parseJSX code = some t ∧ editorParseEffect code = .installed t) ∨
    (parseJSX code = none ∧ jsTrim code ≠ "" ∧
      editorParseEffect code = .invalidInput) ∨
    (parseJSX code = none ∧ jsTrim code = "" ∧
      editorParseEffect code = .cleared) := by
  rcases hp : parseJSX code with _ | t
  · by_cases he : jsTrim code = ""
    · exact Or.inr (Or.inr ⟨rfl, he, by simp [editorParseEffect, hp, he]⟩)
    · exact Or.inr (Or.inl ⟨rfl, he, by simp [editorParseEffect, hp, he]⟩)
  · exact Or.inl ⟨t, rfl, by simp [editorParseEffect, hp]⟩

/-! ## C2: parsed trees have pairwise-distinct ids

The conversion functions draw one fresh id per created node, so all ids of
a converted subtree lie in the counter interval consumed by its
conversion. -/

mutual

theorem convertChildOne_ids : ∀ (c : JSX) (n : Nat) (node : EditorNode) (n' : Nat),
    convertChildOne c n = some (node, n') →
    n ≤ n' ∧ (∀ j ∈ collectIds node, n ≤ j ∧ j < n') ∧ (collectIds node).Nodup := by
  intro c n node n' h
  match c with
  | .elem tag attrs cs =>
    obtain ⟨hle, hmem, hnd⟩ := convertChildren_ids cs n
    simp only [convertChildOne] at h
    cases h
    refine ⟨by omega, ?_, ?_⟩
    · intro j hj
      simp only [collectIds, List.mem_cons] at hj
      rcases hj with rfl | hj
      · omega
      · have := hmem j hj
        omega
    · simp only [collectIds, List.nodup_cons]
      exact ⟨fun hmm => by have := hmem _ hmm; omega, hnd⟩
  | .frag cs =>
    obtain ⟨hle, hmem, hnd⟩ := convertChildren_ids cs n
    simp only [convertChildOne] at h
    cases h
    refine ⟨by omega, ?_, ?_⟩
    · intro j hj
      simp only [collectIds, List.mem_cons] at hj
      rcases hj with rfl | hj
      · omega
      · have := hmem j hj
        omega
    · simp only [collectIds, List.nodup_cons]
      exact ⟨fun hmm => by have := hmem _ hmm; omega, hnd⟩
  | .textChild raw =>
    simp only [convertChildOne] at h
    by_cases ht : jsTrim raw = ""
    · simp [ht] at h
    · simp only [ht, if_neg, ite_false] at h
      cases h
      refine ⟨by omega, ?_, by simp [collectIds, collectIdsL]⟩
      intro j hj
      simp only [collectIds, collectIdsL, List.mem_singleton] at hj
      omega
  | .exprStrChild s =>
    simp only [convertChildOne] at h
    cases h
    refine ⟨by omega, ?_, by simp [collectIds, collectIdsL]⟩
    intro j hj
    simp only [collectIds, collectIdsL, List.mem_singleton] at hj
    omega
  | .exprTplChild s =>
    simp only [convertChildOne] at h
    by_cases ht : jsTrim s = ""
    · simp [ht] at h
    · simp only [ht, if_neg, ite_false] at h
      cases h
      refine ⟨by omega, ?_, by simp [collectIds, collectIdsL]⟩
      intro j hj
      simp only [collectIds, collectIdsL, List.mem_singleton] at hj
      omega
  | .exprOtherChild => simp [convertChildOne] at h

theorem convertChildren_ids : ∀ (l : JSXList) (n : Nat),
    n ≤ (convertChildren l n).2 ∧
    (∀ j ∈ collectIdsL (convertChildren l n).1,
      n ≤ j ∧ j < (convertChildren l n).2) ∧
    (collectIdsL (convertChildren l n).1).Nodup := by
  intro l n
  match l with
  | .nil => exact ⟨Nat.le_refl n, by simp [convertChildren, collectIdsL], by simp [convertChildren, collectIdsL]⟩
  | .cons c rest =>
    rcases hone : convertChildOne c n with _ | ⟨node, n1⟩
    · simp only [convertChildren, hone]
      exact convertChildren_ids rest n
    · obtain ⟨h1, hmem1, hnd1⟩ := convertChildOne_ids c n node n1 hone
      obtain ⟨h2, hmem2, hnd2⟩ := convertChildren_ids rest n1
      simp only [convertChildren, hone]
      refine ⟨by omega, ?_, ?_⟩
      · intro j hj
        simp only [collectIdsL, List.mem_append] at hj
        rcases hj with hj | hj
        · have := hmem1 j hj
          omega
        · have := hmem2 j hj
          omega
      · simp only [collectIdsL, List.nodup_append]
        refine ⟨hnd1, hnd2, ?_⟩
        intro j hja hjb
        have := hmem1 j hja
        have := hmem2 j hjb
        omega

end

/-- C2: every tree returned by `parseJSX` has pairwise-distinct node ids;
each id is drawn exactly once, at node creation. -/
theorem parsed_tree_ids_nodup (code : String) (t : EditorNode)
    (h : parseJSX code = some t) : (collectIds t).Nodup := by
  unfold parseJSX parseJSXBody at h
  by_cases hs : startsWithLt (jsTrim code) = true
  · simp only [hs, not_true, if_neg, ite_false] at h
    rcases hb : babelParse (jsTrim code) with _ | ast
    · simp [hb] at h
    · simp only [hb] at h
      rcases hc : convertChildOne ast 0 with _ | ⟨t0, n'⟩
      · simp [hc] at h
      · simp only [hc, Option.some.injEq] at h
        cases h
        exact (convertChildOne_ids ast 0 t n' hc).2.2
  · simp [hs] at h

/-- Witness for C2 on a concretely parsed tree. -/
theorem parsed_tree_ids_nodup_witness :
    (collectIds (.mk 1 .element (some "p") .nil
      (.cons (.mk 0 .text none .nil .nil (some "Hi")) .nil) none)).Nodup :=
  parsed_tree_ids_nodup "<p>Hi</p>" _ (by decide)

/-! ## C7: double-click text-edit scoping -/

/-- The id at the head of a node's own id list. -/
theorem id_mem_collectIds : ∀ c : EditorNode, c.id ∈ collectIds c := by
  intro c
  match c with
  | .mk i ty tag ps cs tx => simp [collectIds, EditorNode.id]

theorem findText_type : ∀ (l : NodeList) (c : EditorNode),
    l.findText = some c → c.type = NodeType.text := by
  intro l c h
  match l with
  | .nil => simp [NodeList.findText] at h
  | .cons c0 t =>
    by_cases h0 : c0.type = NodeType.text
    · simp only [NodeList.findText, h0, if_pos, ite_true, Option.some.injEq] at h
      cases h
      exact h0
    · simp only [NodeList.findText, h0, if_neg, ite_false] at h
      exact findText_type t c h

theorem findText_id_mem : ∀ (l : NodeList) (c : EditorNode),
    l.findText = some c → c.id ∈ collectIdsL l := by
  intro l c h
  match l with
  | .nil => simp [NodeList.findText] at h
  | .cons c0 t =>
    by_cases h0 : c0.type = NodeType.text
    · simp only [NodeList.findText, h0, if_pos, ite_true, Option.some.injEq] at h
      cases h
      simp only [collectIdsL, List.mem_append]
      exact Or.inl (id_mem_collectIds c)
    · simp only [NodeList.findText, h0, if_neg, ite_false] at h
      simp only [collectIdsL, List.mem_append]
      exact Or.inr (findText_id_mem t c h)

theorem findText_isSome_iff : ∀ l : NodeList,
    (l.findText).isSome = true ↔ 1 ≤ l.countText := by
  intro l
  match l with
  | .nil => simp [NodeList.findText, NodeList.countText]
  | .cons c t =>
    by_cases hc : c.type = NodeType.text
    · simp only [NodeList.findText, NodeList.countText, hc, if_pos, ite_true,
        Option.isSome_some, true_iff]
      omega
    · simp [NodeList.findText, NodeList.countText, hc, findText_isSome_iff t]

/-- C7 (amended): a non-fragment element installs a double-click editing
handler iff it has at least one (not exactly one) direct text child; the
handler targets the first direct text child's id — a text child's id, and
never the element's own id when the element's id does not occur among its
children. -/
theorem dbl_click_scoping (n : EditorNode)
    (hel : n.type = NodeType.element) (hfr : n.tagName ≠ some "Fragment") :
    ((dblClickTarget n).isSome = true ↔ 1 ≤ n.children.countText) ∧
    (∀ tid, dblClickTarget n = some tid →
      (∃ c, n.children.findText = some c ∧ c.type = NodeType.text ∧ c.id = tid) ∧
      (n.id ∉ collectIdsL n.children → tid ≠ n.id)) := by
  have hne : ¬ (n.type = NodeType.text) := by
    rw [hel]
    intro hh
    cases hh
  unfold dblClickTarget
  rw [if_neg hne, if_neg hfr]
  constructor
  · rcases hf : n.children.findText with _ | c
    · simp [hf, (findText_isSome_iff n.children).symm]
    · simp only [hf, Option.isSome_some, true_iff]
      exact (findText_isSome_iff n.children).1 (by simp [hf])
  · intro tid htid
    rcases hf : n.children.findText with _ | c
    · rw [hf] at htid
      cases htid
    · rw [hf] at htid
      simp only [Option.some.injEq] at htid
      refine ⟨⟨c, rfl, findText_type n.children c hf, htid⟩, ?_⟩
      intro hnid heq
      exact hnid (heq ▸ htid ▸ findText_id_mem n.children c hf)

/-- The `<button><b>Me</b></button>` shape: a single non-text child, no
direct text child. -/
def buttonShape : EditorNode :=
  .mk 7 .element (some "button") .nil
    (.cons (.mk 5 .element (some "b") .nil
      (.cons (.mk 4 .text none .nil .nil (some "Me")) .nil) none) .nil)
    none

/-- Witness for C7 at the button shape: no direct text child, so
double-click installs no editing handler. -/
theorem dbl_click_scoping_witness :
    ((dblClickTarget buttonShape).isSome = true
      ↔ 1 ≤ buttonShape.children.countText) ∧
    dblClickTarget buttonShape = none :=
  ⟨(dbl_click_scoping buttonShape (by decide) (by decide)).1, by decide⟩

/-- An element with two direct text children. -/
def twoTextElem : EditorNode :=
  .mk 9 .element (some "div") .nil
    (.cons (.mk 5 .text none .nil .nil (some "a"))
      (.cons (.mk 6 .text none .nil .nil (some "b")) .nil))
    none

/-- C7 counterexample: with two direct text children — not exactly one —
double-click still begins inline editing (of the first text child), so the
claimed "if and only if exactly one direct text child" is false. -/
theorem dbl_click_not_exactly_one :
    twoTextElem.children.countText = 2 ∧
    dblClickTarget twoTextElem = some 5 ∧
    (dblClickTarget twoTextElem).isSome = true := by
  refine ⟨by decide, by decide, by decide⟩

/-! ## C9: gradient detection -/

/-- C9 (amended): a background image containing `linear-gradient` always
switches the panel to gradient mode; a successful match of the three-group
pattern installs the direction and the trimmed color stops, while a
malformed gradient silently leaves the previous stops — the background is
still treated as gradient, not solid. -/
theorem gradient_detection_behaviour (inl mrg : PropList) (prev : GradState)
    (h : containsSub "linear-gradient".toList (bgImageOf inl).toList = true) :
    (gradientDetect inl mrg prev).bgType = BackgroundType.gradient ∧
    (gradMatch (bgImageOf inl) = none →
      gradientDetect inl mrg prev = { prev with bgType := BackgroundType.gradient }) ∧
    (∀ d f t, gradMatch (bgImageOf inl) = some (d, f, t) →
      gradientDetect inl mrg prev = ⟨.gradient, d, jsTrim f, jsTrim t⟩) := by
  unfold gradientDetect
  rw [if_pos h]
  rcases hm : gradMatch (bgImageOf inl) with _ | ⟨d, f, t⟩
  · simp [hm]
  · simp [hm]

/-- A well-formed two-stop gradient value. -/
def wfGradInline : PropList :=
  .cons "backgroundImage" (.str "linear-gradient(to right, #ff0000, #0000ff)") .nil

/-- Witness for C9: the well-formed gradient is decomposed into its
direction and two color stops. -/
theorem gradient_detection_behaviour_witness :
    gradientDetect wfGradInline .nil initGradState
      = ⟨BackgroundType.gradient, "to right", "#ff0000", "#0000ff"⟩ :=
  (gradient_detection_behaviour wfGradInline .nil initGradState (by decide)).2.2
    "to right" "#ff0000" "#0000ff" (by decide)

/-- A malformed gradient: contains `linear-gradient` but has only two
groups, so the three-group pattern does not match. -/
def malformedGradInline : PropList :=
  .cons "backgroundImage" (.str "linear-gradient(red)") .nil

/-- C9 counterexample: on a malformed gradient the extraction fails
silently but the background is treated as gradient, not solid as
claimed. -/
theorem malformed_gradient_not_solid :
    containsSub "linear-gradient".toList "linear-gradient(red)".toList = true ∧
    gradMatch "linear-gradient(red)" = none ∧
    (gradientDetect malformedGradInline .nil initGradState).bgType
      = BackgroundType.gradient ∧
    (gradientDetect malformedGradInline .nil initGradState).bgType
      ≠ BackgroundType.solid := by
  refine ⟨by decide, by decide, by decide, by decide⟩

/-! ## C8: empty style update leaves the serialized output unchanged

This holds for trees whose `style` props, when present, are object maps
(with the duplicate-free keys every JS record has) — the spec's own data
model for the `style` attribute. It fails for trees carrying a non-object
truthy `style` value, which the parser can produce from `style="..."`
markup: the empty update spreads the string into its character-index
entries (see the counterexample). -/

mutual

/-- Well-formedness for the empty-update idempotence: every node's `style`
prop is absent or an object map with duplicate-free keys. -/
def wfStyles : EditorNode → Bool
  | .mk _ _ _ props cs _ =>
    (match props.get "style" with
     | none => true
     | some (.obj m) => decide m.keys.Nodup
     | some _ => false) && wfStylesL cs

/-- The conjunction of `wfStyles` over a children array. -/
def wfStylesL : NodeList → Bool
  | .nil => true
  | .cons c t => wfStyles c && wfStylesL t

end

theorem get_isSome_of_mem : ∀ (l : PropList) (k : String), k ∈ l.keys →
    (l.get k).isSome = true := by
  intro l k h
  match l with
  | .nil => simp [PropList.keys] at h
  | .cons k0 v0 t =>
    by_cases h0 : k0 = k
    · simp [PropList.get, h0]
    · simp only [PropList.keys, List.mem_cons] at h
      rcases h with h | h
      · exact absurd h.symm h0
      · simp [PropList.get, h0, get_isSome_of_mem t k h]

theorem not_mem_of_get_none (l : PropList) (k : String) (h : l.get k = none) :
    k ∉ l.keys := by
  intro hm
  have := get_isSome_of_mem l k hm
  rw [h] at this
  simp at this

theorem serializePropsParts_append : ∀ (a b : PropList),
    serializePropsParts (a.append b)
      = serializePropsParts a ++ serializePropsParts b := by
  intro a b
  match a with
  | .nil => rfl
  | .cons k v t =>
    show serializePropsParts (.cons k v (t.append b)) = _
    rcases hp : serializePropPart k v with _ | p
    · simp [serializePropsParts, hp, serializePropsParts_append t b]
    · simp [serializePropsParts, hp, serializePropsParts_append t b]

/-- The new `style` value installed by an empty update. -/
def emptyUpdatedStyle (props : PropList) : PropValue :=
  .obj (mergeSpread (styleBase (props.get "style")) (updListToProps []))

theorem serializeProps_empty_update (props : PropList)
    (h : (match props.get "style" with
          | none => true
          | some (.obj m) => decide m.keys.Nodup
          | some _ => false) = true) :
    serializeProps (props.set "style" (emptyUpdatedStyle props))
      = serializeProps props := by
  rcases hg : props.get "style" with _ | v
  · have hnm : "style" ∉ props.keys := not_mem_of_get_none props "style" hg
    have hbase : emptyUpdatedStyle props = .obj .nil := by
      simp [emptyUpdatedStyle, hg, styleBase, mergeSpread, updListToProps,
        PropList.spreadOnto]
    rw [hbase, PropList.set_of_not_mem props "style" (.obj .nil) hnm]
    unfold serializeProps
    rw [serializePropsParts_append]
    have hpart : serializePropsParts (.cons "style" (.obj .nil) .nil) = [] := by decide
    rw [hpart, List.append_nil]
  · rw [hg] at h
    match v with
    | .str s => simp at h
    | .num n => simp at h
    | .bool b => simp at h
    | .obj m =>
      have hnd : m.keys.Nodup := by simpa using h
      have hbase : emptyUpdatedStyle props = .obj m := by
        simp only [emptyUpdatedStyle, hg, styleBase, updListToProps, mergeSpread]
        rw [show ∀ x : PropList, x.spreadOnto .nil = x from fun x => rfl]
        rw [PropList.nil_spreadOnto_of_nodup m hnd]
      rw [hbase, PropList.set_get_self props "style" (.obj m) hg]

theorem updateNodeStyle_type : ∀ (c : EditorNode) (i : Nat)
    (u : List (String × String)), (updateNodeStyle c i u).type = c.type := by
  intro c i u
  match c with
  | .mk nid ty tag props cs tx =>
    by_cases h : nid = i <;> simp [updateNodeStyle, h, EditorNode.type]

theorem updateNodeStyle_textContent : ∀ (c : EditorNode) (i : Nat)
    (u : List (String × String)),
    (updateNodeStyle c i u).textContent = c.textContent := by
  intro c i u
  match c with
  | .mk nid ty tag props cs tx =>
    by_cases h : nid = i <;> simp [updateNodeStyle, h, EditorNode.textContent]

theorem updateNodeStyleL_len : ∀ (cs : NodeList) (i : Nat)
    (u : List (String × String)), (updateNodeStyleL cs i u).len = cs.len := by
  intro cs i u
  match cs with
  | .nil => rfl
  | .cons c t => simp [updateNodeStyleL, NodeList.len, updateNodeStyleL_len t i u]

theorem updateNodeStyleL_allText : ∀ (cs : NodeList) (i : Nat)
    (u : List (String × String)),
    (updateNodeStyleL cs i u).allText = cs.allText := by
  intro cs i u
  match cs with
  | .nil => rfl
  | .cons c t =>
    simp [updateNodeStyleL, NodeList.allText, updateNodeStyle_type c i u,
      updateNodeStyleL_allText t i u]

/-- The output of `serializeToJSX` depends on the props only through `serializeProps`. -/
theorem serializeToJSX_props_congr (nid : Nat) (ty : NodeType)
    (tag : Option String) (p1 p2 : PropList) (cs : NodeList)
    (tx : Option String) (ind : Nat)
    (h : serializeProps p1 = serializeProps p2) :
    serializeToJSX (.mk nid ty tag p1 cs tx) ind
      = serializeToJSX (.mk nid ty tag p2 cs tx) ind := by
  simp only [serializeToJSX]
  rw [h]

mutual

theorem serialize_update_aux : ∀ (t : EditorNode) (i ind : Nat),
    wfStyles t = true →
    serializeToJSX (updateNodeStyle t i []) ind = serializeToJSX t ind := by
  intro t i ind hwf
  match t with
  | .mk nid ty tag props cs tx =>
    rw [show wfStyles (.mk nid ty tag props cs tx)
        = ((match props.get "style" with
            | none => true
            | some (.obj m) => decide m.keys.Nodup
            | some _ => false) && wfStylesL cs) from rfl,
      Bool.and_eq_true] at hwf
    obtain ⟨hst, hcs⟩ := hwf
    by_cases hid : nid = i
    · rw [show updateNodeStyle (.mk nid ty tag props cs tx) i []
          = .mk nid ty tag (props.set "style" (emptyUpdatedStyle props)) cs tx by
        simp [updateNodeStyle, hid, emptyUpdatedStyle]]
      exact serializeToJSX_props_congr nid ty tag _ props cs tx ind
        (serializeProps_empty_update props hst)
    · rw [show updateNodeStyle (.mk nid ty tag props cs tx) i []
          = .mk nid ty tag props (updateNodeStyleL cs i []) tx by
        simp [updateNodeStyle, hid]]
      by_cases hty : ty = NodeType.text
      · simp [serializeToJSX, hty]
      · by_cases htag : tag = some "Fragment"
        · simp only [serializeToJSX, hty, if_neg, ite_false, htag, if_pos, ite_true]
          rw [serializeFragLines_update cs i ind hcs]
        · match cs with
          | .nil => rfl
          | .cons c rest =>
            have hwfc : wfStyles c = true := by
              rw [show wfStylesL (.cons c rest) = (wfStyles c && wfStylesL rest)
                from rfl, Bool.and_eq_true] at hcs
              exact hcs.1
            simp only [serializeToJSX, hty, if_neg, ite_false, htag,
              updateNodeStyleL]
            have hallText : (NodeList.cons (updateNodeStyle c i [])
                (updateNodeStyleL rest i [])).allText
                = (NodeList.cons c rest).allText :=
              updateNodeStyleL_allText (.cons c rest) i []
            have hlen : (NodeList.cons (updateNodeStyle c i [])
                (updateNodeStyleL rest i [])).len
                = (NodeList.cons c rest).len :=
              updateNodeStyleL_len (.cons c rest) i []
            simp only [hallText, hlen]
            by_cases hsingle :
                ((NodeList.cons c rest).allText && (NodeList.cons c rest).len = 1)
                = true
            · simp only [hsingle, if_pos, ite_true]
              rw [updateNodeStyle_textContent c i []]
            · simp only [hsingle, if_neg, Bool.not_eq_true, ite_false]
              rw [show serializeChildLines (.cons (updateNodeStyle c i [])
                  (updateNodeStyleL rest i [])) ind
                = serializeChildLines (updateNodeStyleL (.cons c rest) i []) ind
                from rfl]
              rw [serializeChildLines_update (.cons c rest) i ind hcs]

theorem serializeFragLines_update : ∀ (cs : NodeList) (i ind : Nat),
    wfStylesL cs = true →
    serializeFragLines (updateNodeStyleL cs i []) ind
      = serializeFragLines cs ind := by
  intro cs i ind hwf
  match cs with
  | .nil => rfl
  | .cons c t =>
    rw [show wfStylesL (.cons c t) = (wfStyles c && wfStylesL t) from rfl,
      Bool.and_eq_true] at hwf
    simp only [updateNodeStyleL, serializeFragLines]
    rw [serialize_update_aux c i ind hwf.1, serializeFragLines_update t i ind hwf.2]

theorem serializeChildLines_update : ∀ (cs : NodeList) (i ind : Nat),
    wfStylesL cs = true →
    serializeChildLines (updateNodeStyleL cs i []) ind
      = serializeChildLines cs ind := by
  intro cs i ind hwf
  match cs with
  | .nil => rfl
  | .cons c t =>
    rw [show wfStylesL (.cons c t) = (wfStyles c && wfStylesL t) from rfl,
      Bool.and_eq_true] at hwf
    simp only [updateNodeStyleL, serializeChildLines]
    rw [updateNodeStyle_type c i [], updateNodeStyle_textContent c i [],
      serialize_update_aux c i (ind + 1) hwf.1,
      serializeChildLines_update t i ind hwf.2]

end

/-- C8 (amended): for every tree whose nodes carry `style` props only as
object maps (the spec's data model for `style`; JS records have
duplicate-free keys) and for every id, serializing
`updateNodeStyle(tree, id, {})` produces exactly the same markup text as
serializing the original tree, at every indentation level. -/
theorem empty_update_serialize_unchanged (t : EditorNode) (i ind : Nat)
    (h : wfStyles t = true) :
    serializeToJSX (updateNodeStyle t i []) ind = serializeToJSX t ind :=
  serialize_update_aux t i ind h

/-- Witness for the amended C8 at a concrete tree and its root id. -/
theorem empty_update_serialize_unchanged_witness :
    serializeToJSX (updateNodeStyle (.mk 0 .element (some "div")
      (.cons "style" (.obj (.cons "color" (.str "red") .nil)) .nil)
      .nil none) 0 []) 0
    = serializeToJSX (.mk 0 .element (some "div")
      (.cons "style" (.obj (.cons "color" (.str "red") .nil)) .nil)
      .nil none) 0 :=
  empty_update_serialize_unchanged (.mk 0 .element (some "div")
    (.cons "style" (.obj (.cons "color" (.str "red") .nil)) .nil)
    .nil none) 0 0 (by decide)

/-- A tree whose `style` prop is a string, as `style="abc"` markup
produces. -/
def styleStrNode : EditorNode :=
  .mk 0 .element (some "div") (.cons "style" (.str "abc") .nil) .nil none

/-- C8 counterexample: on a tree with a string-valued `style` prop the
empty update spreads the string into character-index entries and the
serialized output changes, so the claim's unrestricted "for every tree" is
false. -/
theorem empty_update_changes_output :
    serializeToJSX styleStrNode 0 = "<div style=\"abc\" />" ∧
    serializeToJSX (updateNodeStyle styleStrNode 0 []) 0
      = "<div style=\x7b\x7b 0: \"a\", 1: \"b\", 2: \"c\" \x7d\x7d />" ∧
    serializeToJSX (updateNodeStyle styleStrNode 0 []) 0
      ≠ serializeToJSX styleStrNode 0 := by
  refine ⟨by decide, by decide, by decide⟩

end WebEd
